import Mathlib

set_option linter.unusedSectionVars false

/-!
Shallow embedding of `min_pq.py`: a generic minimum-oriented priority queue
backed by a 1-indexed binary heap stored in a resizable array.

The Python storage `self.pq` is a list of optional slots (slot 0 unused, `None`
in dead slots), `self.n` counts live elements, and `self.comparator` is an
optional two-argument ordering function returning negative/zero/positive.
We embed the state as a structure over an element type `α` with a `LinearOrder`
(the "natural ordering" of the Python keys); an injected comparator is a
function `α → α → Int` kept in the state, exactly as in the source.

The bodies of `_swim` and `_sink` are `STUDENT TODO` stubs (`pass`) in the
source file; they are modelled from the spec (its "Sift-up" and "Sift-down"
paragraphs), as marked on their doc comments below.  Everything else is
translated directly from the Python source.
-/

structure MinPQ (α : Type) where
  pq : List (Option α)
  n : Nat
  comparator : Option (α → α → Int)

namespace MinPQ

variable {α : Type} [LinearOrder α]

/-- Read a storage slot: `self.pq[i]`, with `none` out of range (the Python
code only reads in-range slots on the paths we model). -/
def slot (s : MinPQ α) (i : Nat) : Option α := s.pq.getD i none

/-- The key-level "is greater" test of `_greater`: natural order `a > b` when
no comparator was injected, otherwise `comparator(a, b) > 0`. -/
def keyGt (c : Option (α → α → Int)) (a b : α) : Bool :=
  match c with
  | none => decide (b < a)
  | some f => decide (0 < f a b)

/-- `keyGt` lifted to optional slot contents; comparing a missing slot raises
`TypeError` in Python and never happens on live indices, so the value chosen
for those branches (`false`) is irrelevant to the verified behaviour. -/
def optGt (c : Option (α → α → Int)) : Option α → Option α → Bool
  | some a, some b => keyGt c a b
  | _, _ => false

/-- `MinPQ._greater`: whether `pq[i] > pq[j]` per the active ordering. -/
def greater (s : MinPQ α) (i j : Nat) : Bool :=
  optGt s.comparator (s.slot i) (s.slot j)

/-- `MinPQ._exch`: swap the slots at positions `i` and `j`. -/
def exch (s : MinPQ α) (i j : Nat) : MinPQ α :=
  { s with pq := (s.pq.set i (s.slot j)).set j (s.slot i) }

/-- One-loop-at-a-time form of the sift-up below, structurally recursive on an
explicit iteration bound so that the function also evaluates by reduction.
The index at least halves at each iteration, so any `fuel ≥ k` is sufficient and the
bound never fires (proved where needed). -/
def swimAux : Nat → MinPQ α → Nat → MinPQ α
  | 0, s, _ => s
  | fuel + 1, s, k =>
    if 2 ≤ k ∧ s.greater (k / 2) k = true then
      swimAux fuel (s.exch (k / 2) k) (k / 2)
    else s

/-- `MinPQ._swim`.  Modelled from the spec: the body of `_swim` in the source
is a `STUDENT TODO` stub.  Spec §4, "Sift-up": given index `k`, while `k > 1`
and the element at `k` is smaller than the element at parent index `k / 2`
(integer division), swap them and set `k` to the parent index. -/
def swim (s : MinPQ α) (k : Nat) : MinPQ α := swimAux k s k

/-- The child choice of the sift-down step.  Modelled from the spec: "choose
the smaller of the two existing children (right child only considered if
`2k + 1 ≤ n` and it is smaller than the left)"; note `2k + 1 ≤ n ↔ 2k < n`. -/
def childSel (s : MinPQ α) (k : Nat) : Nat :=
  if 2 * k < s.n ∧ s.greater (2 * k) (2 * k + 1) = true then 2 * k + 1 else 2 * k

/-- `MinPQ._sink`.  Modelled from the spec: the body of `_sink` in the source
is a `STUDENT TODO` stub.  Spec §4, "Sift-down": given index `k`, while `k`
has at least one child (`2k ≤ n`): choose the smaller of the two existing
children (`childSel`); if the element at `k` is not larger than that smaller
child, stop; otherwise swap `k` with that child and continue from the child's
index.  The `1 ≤ k` guard makes the recursion total; `_sink` is only ever
invoked with `k ≥ 1` (Python would fault on `k = 0`, reading the unused
slot 0).  As with sift-up, the loop is phrased with an explicit iteration
bound (structural recursion) so the function evaluates by reduction; the
index strictly increases and stays within `[1, n]` while looping, so
`fuel = n + 1 - k` is sufficient and the bound never fires. -/
def sinkAux : Nat → MinPQ α → Nat → MinPQ α
  | 0, s, _ => s
  | fuel + 1, s, k =>
    if 1 ≤ k ∧ 2 * k ≤ s.n then
      if s.greater k (s.childSel k) = true then
        sinkAux fuel (s.exch k (s.childSel k)) (s.childSel k)
      else s
    else s

def sink (s : MinPQ α) (k : Nat) : MinPQ α := sinkAux (s.n + 1 - k) s k

/-- `MinPQ._resize`: allocate `capacity` empty slots and copy slots `1..n`.
(The Python method asserts `capacity > self.n` first; every call site we model
maintains that bound, which we prove where it matters.) -/
def resize (s : MinPQ α) (capacity : Nat) : MinPQ α :=
  { s with
    pq := (List.range capacity).map
            (fun i => if 1 ≤ i ∧ i ≤ s.n then s.slot i else none) }

/-- `MinPQ.is_empty`. -/
def is_empty (s : MinPQ α) : Bool := s.n == 0

/-- `MinPQ.size`. -/
def size (s : MinPQ α) : Nat := s.n

/-- `MinPQ.min`: raises `ValueError("Priority queue underflow")` on an empty
queue, otherwise returns `pq[1]`.  The raised exception is embedded as an
`Except.error` carrying the message. -/
def min (s : MinPQ α) : Except String (Option α) :=
  if s.is_empty then Except.error "Priority queue underflow"
  else Except.ok (s.slot 1)

/-- `MinPQ.insert`: double the array if full, place `x` at the new index `n`,
and swim it up.  The trailing `assert self._is_min_heap()` of the source is a
debug check; we prove it true for every reachable state instead of modelling
an `AssertionError` path (see the heap-invariant theorems below). -/
def insert (s : MinPQ α) (x : α) : MinPQ α :=
  let s1 := if s.n = s.pq.length - 1 then s.resize (2 * s.pq.length) else s
  let s2 : MinPQ α := { s1 with n := s1.n + 1, pq := s1.pq.set (s1.n + 1) (some x) }
  s2.swim s2.n

/-- `MinPQ.del_min`: raises underflow on an empty queue; otherwise captures
`pq[1]`, swaps it with the last live slot, shrinks `n`, sinks the new root,
clears the vacated slot, and halves the array when the quarter-full shrink
condition holds.  As in `insert`, the trailing debug assert is proved, not
modelled. -/
def del_min (s : MinPQ α) : Except String (Option α × MinPQ α) :=
  if s.is_empty then Except.error "Priority queue underflow"
  else
    let m := s.slot 1
    let s1 := s.exch 1 s.n
    let s2 : MinPQ α := { s1 with n := s1.n - 1 }
    let s3 := s2.sink 1
    let s4 : MinPQ α := { s3 with pq := s3.pq.set (s3.n + 1) none }
    let s5 := if 0 < s4.n ∧ s4.n = (s4.pq.length - 1) / 4
      then s4.resize (s4.pq.length / 2) else s4
    Except.ok (m, s5)

/-- `MinPQ._is_min_heap_ordered`: the recursive subtree check.  The `k = 0`
branch is unreachable from the root call at `k = 1` (Python would fault there,
comparing the unused slot 0); it is fixed to `false` to make the recursion
total.  The recursion depth is bounded by `n + 1 - k` (children of a node
`k ≤ n` are at `2k` and `2k + 1`), so the structural bound below never fires
when the check starts from the root. -/
def isMinHeapOrderedAux (s : MinPQ α) : Nat → Nat → Bool
  | 0, _ => true
  | fuel + 1, k =>
    if s.n < k then true
    else if k = 0 then false
    else
      (!(2 * k ≤ s.n ∧ s.greater k (2 * k) = true : Bool)) &&
      (!(2 * k + 1 ≤ s.n ∧ s.greater k (2 * k + 1) = true : Bool)) &&
      s.isMinHeapOrderedAux fuel (2 * k) && s.isMinHeapOrderedAux fuel (2 * k + 1)

def is_min_heap_ordered (s : MinPQ α) (k : Nat) : Bool :=
  s.isMinHeapOrderedAux (s.n + 1 - k) k

/-- `MinPQ._is_min_heap`: slots `1..n` populated, the remaining slots (index 0
and everything past `n`) empty, and the subtree check from the root. -/
def is_min_heap (s : MinPQ α) : Bool :=
  ((List.range s.n).all fun i => (s.slot (i + 1)).isSome) &&
  ((List.range (s.pq.length - (s.n + 1))).all fun i => (s.slot (s.n + 1 + i)).isNone) &&
  (s.slot 0).isNone &&
  s.is_min_heap_ordered 1

/-- The `__init__` patterns `MinPQ()` / `MinPQ(capacity)` (no key list):
`cap + 1` empty slots, `n = 0`. -/
def withCapacity (cap : Nat) (comp : Option (α → α → Int)) : MinPQ α :=
  { pq := List.replicate (cap + 1) none, n := 0, comparator := comp }

/-- The heapify loop of `__init__`: `for k in range(self.n // 2, 0, -1):
self._sink(k)`, applied here with the counter counting down from `m`. -/
def sinkFrom (s : MinPQ α) : Nat → MinPQ α
  | 0 => s
  | m + 1 => (s.sink (m + 1)).sinkFrom m

/-- The `__init__` pattern `MinPQ(keys)`: copy the keys into 1-indexed
storage (`pq[0]` unused) and heapify from `n / 2` down to `1`. -/
def ofKeys (keys : List α) (comp : Option (α → α → Int)) : MinPQ α :=
  let base : MinPQ α := { pq := none :: keys.map some, n := keys.length,
                          comparator := comp }
  base.sinkFrom (keys.length / 2)

/-- The constructor of `MinPQ.HeapIterator`: a fresh queue of capacity
`pq.size()` with the same comparator, into which the live slots are inserted
in index order. -/
def snapshot (s : MinPQ α) : MinPQ α :=
  ((List.range s.n).map fun i => s.slot (i + 1)).foldl
    (fun t x => match x with
      | some a => t.insert a
      | none => t)
    (withCapacity s.size s.comparator)

/-- `HeapIterator.__next__`: `StopIteration` once the private copy is empty,
otherwise `del_min` on the copy. -/
def iterNext (it : MinPQ α) : Except String (Option α × MinPQ α) :=
  if it.is_empty then Except.error "StopIteration" else it.del_min

/-- Repeatedly `del_min` with explicit fuel (each successful `del_min`
decreases `n` by one, so fuel `s.n` drains the queue; proved below). -/
def drainAux : Nat → MinPQ α → List (Option α)
  | 0, _ => []
  | fuel + 1, s =>
    match s.del_min with
    | Except.error _ => []
    | Except.ok (m, t) => m :: drainAux fuel t

/-- Extract every element: repeated `del_min` until empty. -/
def drain (s : MinPQ α) : List (Option α) := drainAux s.n s

/-- Insert a list of keys left to right. -/
def insertAll (s : MinPQ α) (xs : List α) : MinPQ α := xs.foldl insert s

/-- A public mutating call, for stating properties of arbitrary operation
sequences: an `insert x` or a `del_min` attempt. -/
inductive Op (α : Type) where
  | ins (x : α)
  | del

/-- Run one call.  A `del_min` on an empty queue raises in Python before any
field is written, so the caller's queue is unchanged; the embedding keeps the
state on the error branch accordingly. -/
def runOp (s : MinPQ α) : Op α → MinPQ α
  | Op.ins x => s.insert x
  | Op.del =>
    match s.del_min with
    | Except.ok r => r.2
    | Except.error _ => s

/-- Run a sequence of calls left to right. -/
def run (s : MinPQ α) (ops : List (Op α)) : MinPQ α := ops.foldl runOp s

/-- Number of `insert` calls in a sequence. -/
def insCount : List (Op α) → Nat
  | [] => 0
  | Op.ins _ :: rest => insCount rest + 1
  | Op.del :: rest => insCount rest

/-- Number of `del_min` calls that succeed (do not raise underflow) when the
sequence is run from state `s`. -/
def delSuccCount (s : MinPQ α) : List (Op α) → Nat
  | [] => 0
  | Op.ins x :: rest => delSuccCount (s.insert x) rest
  | Op.del :: rest => (if s.n = 0 then 0 else 1) + delSuccCount (runOp s Op.del) rest

/-- Structural well-formedness used inside operations: the capacity invariant
`n < len(pq)` and populated live slots. -/
structure Wf (s : MinPQ α) : Prop where
  cap : s.n + 1 ≤ s.pq.length
  live : ∀ i, 1 ≤ i → i ≤ s.n → (s.slot i).isSome = true

/-- The full representation invariant of a quiescent queue: well-formed, the
unused slot 0 and every slot past `n` cleared, and the heap-order invariant
(each live child `c ≥ 2` is not smaller than its parent `c / 2`, per the
active ordering). -/
structure Valid (s : MinPQ α) : Prop where
  wf : Wf s
  zero : s.slot 0 = none
  high : ∀ i, s.n < i → s.slot i = none
  ord : ∀ c, 2 ≤ c → c ≤ s.n → s.greater (c / 2) c = false

/-- The spec's requirement on an injected comparator: the induced "is greater"
predicate is a strict weak order (asymmetric and negatively transitive).  The
natural ordering of a `LinearOrder` satisfies it. -/
def GoodCmp (c : Option (α → α → Int)) : Prop :=
  (∀ a b, keyGt c a b = true → keyGt c b a = false) ∧
  (∀ a b d, keyGt c a b = false → keyGt c b d = false → keyGt c a d = false)

/-- Every live slot of `t` holds a value held by some live slot of `s`. -/
def SubsetLive (t s : MinPQ α) : Prop :=
  ∀ i, 1 ≤ i → i ≤ t.n → ∃ j, 1 ≤ j ∧ j ≤ s.n ∧ t.slot i = s.slot j

end MinPQ

namespace MinPQ

variable {α : Type} [LinearOrder α]

/-! ### Slot toolkit -/

theorem getD_set_none (l : List (Option α)) (i m : Nat) (v : Option α) :
    (l.set i v).getD m none = if m = i ∧ i < l.length then v else l.getD m none := by
  simp only [List.getD_eq_getElem?_getD, List.getElem?_set]
  rcases eq_or_ne i m with rfl | h
  · by_cases hl : i < l.length
    · simp [hl]
    · simp [hl, List.getElem?_eq_none (le_of_not_lt hl)]
  · simp [h, Ne.symm h]

theorem exch_n (s : MinPQ α) (i j : Nat) : (s.exch i j).n = s.n := rfl

theorem exch_comparator (s : MinPQ α) (i j : Nat) :
    (s.exch i j).comparator = s.comparator := rfl

theorem exch_length (s : MinPQ α) (i j : Nat) :
    (s.exch i j).pq.length = s.pq.length := by
  simp [exch]

theorem exch_slot (s : MinPQ α) {i j : Nat} (hi : i < s.pq.length)
    (hj : j < s.pq.length) (m : Nat) :
    (s.exch i j).slot m =
      if m = j then s.slot i else if m = i then s.slot j else s.slot m := by
  show ((s.pq.set i (s.slot j)).set j (s.slot i)).getD m none = _
  rw [getD_set_none, getD_set_none]
  simp only [List.length_set]
  by_cases h1 : m = j <;> by_cases h2 : m = i <;> simp [slot, h1, h2, hi, hj]

theorem resize_n (s : MinPQ α) (c : Nat) : (s.resize c).n = s.n := rfl

theorem resize_comparator (s : MinPQ α) (c : Nat) :
    (s.resize c).comparator = s.comparator := rfl

theorem resize_length (s : MinPQ α) (c : Nat) : (s.resize c).pq.length = c := by
  simp [resize]

theorem resize_slot (s : MinPQ α) (c m : Nat) :
    (s.resize c).slot m =
      if m < c ∧ 1 ≤ m ∧ m ≤ s.n then s.slot m else none := by
  show ((List.range c).map _).getD m none = _
  rw [List.getD_eq_getElem?_getD, List.getElem?_map]
  by_cases h : m < c
  · rw [List.getElem?_range h]
    by_cases h2 : 1 ≤ m ∧ m ≤ s.n <;> simp [h, h2]
  · have hnone : (List.range c)[m]? = none :=
      List.getElem?_eq_none (by simpa using le_of_not_lt h)
    simp [hnone, h]

theorem greater_congr {s t : MinPQ α} {i j p q : Nat}
    (hc : t.comparator = s.comparator) (h1 : t.slot i = s.slot p)
    (h2 : t.slot j = s.slot q) : t.greater i j = s.greater p q := by
  simp [greater, hc, h1, h2]

end MinPQ

namespace MinPQ

variable {α : Type} [LinearOrder α]

/-! ### Shape preservation: `n`, storage length and comparator -/

theorem swimAux_shape : ∀ (fuel k : Nat) (s : MinPQ α),
    (swimAux fuel s k).n = s.n ∧ (swimAux fuel s k).pq.length = s.pq.length ∧
      (swimAux fuel s k).comparator = s.comparator := by
  intro fuel
  induction fuel with
  | zero => exact fun k s => ⟨rfl, rfl, rfl⟩
  | succ fuel ih =>
    intro k s
    unfold swimAux
    split
    · have hrec := ih (k / 2) (s.exch (k / 2) k)
      simpa [exch_n, exch_length, exch_comparator] using hrec
    · exact ⟨rfl, rfl, rfl⟩

theorem swim_shape (k : Nat) (s : MinPQ α) :
    (s.swim k).n = s.n ∧ (s.swim k).pq.length = s.pq.length ∧
      (s.swim k).comparator = s.comparator := swimAux_shape k k s

theorem sinkAux_shape : ∀ (fuel k : Nat) (s : MinPQ α),
    (sinkAux fuel s k).n = s.n ∧ (sinkAux fuel s k).pq.length = s.pq.length ∧
      (sinkAux fuel s k).comparator = s.comparator := by
  intro fuel
  induction fuel with
  | zero => exact fun k s => ⟨rfl, rfl, rfl⟩
  | succ fuel ih =>
    intro k s
    unfold sinkAux
    split
    · split
      · have hrec := ih (s.childSel k) (s.exch k (s.childSel k))
        simpa [exch_n, exch_length, exch_comparator] using hrec
      · exact ⟨rfl, rfl, rfl⟩
    · exact ⟨rfl, rfl, rfl⟩

theorem sink_shape (k : Nat) (s : MinPQ α) :
    (s.sink k).n = s.n ∧ (s.sink k).pq.length = s.pq.length ∧
      (s.sink k).comparator = s.comparator := sinkAux_shape (s.n + 1 - k) k s

theorem sinkFrom_shape (m : Nat) (s : MinPQ α) :
    (s.sinkFrom m).n = s.n ∧ (s.sinkFrom m).pq.length = s.pq.length ∧
      (s.sinkFrom m).comparator = s.comparator := by
  induction m generalizing s with
  | zero => exact ⟨rfl, rfl, rfl⟩
  | succ m ih =>
    have h1 := sink_shape (m + 1) s
    have h2 := ih (s.sink (m + 1))
    unfold sinkFrom
    exact ⟨h2.1.trans h1.1, h2.2.1.trans h1.2.1, h2.2.2.trans h1.2.2⟩

theorem insert_n (s : MinPQ α) (x : α) : (s.insert x).n = s.n + 1 := by
  unfold insert
  have h := swim_shape
    (((if s.n = s.pq.length - 1 then s.resize (2 * s.pq.length) else s).n + 1))
    { (if s.n = s.pq.length - 1 then s.resize (2 * s.pq.length) else s) with
        n := (if s.n = s.pq.length - 1 then s.resize (2 * s.pq.length) else s).n + 1,
        pq := (if s.n = s.pq.length - 1 then s.resize (2 * s.pq.length) else s).pq.set
          ((if s.n = s.pq.length - 1 then s.resize (2 * s.pq.length) else s).n + 1) (some x) }
  rw [h.1]
  split <;> simp [resize_n]

theorem insert_comparator (s : MinPQ α) (x : α) :
    (s.insert x).comparator = s.comparator := by
  unfold insert
  have h := swim_shape
    (((if s.n = s.pq.length - 1 then s.resize (2 * s.pq.length) else s).n + 1))
    { (if s.n = s.pq.length - 1 then s.resize (2 * s.pq.length) else s) with
        n := (if s.n = s.pq.length - 1 then s.resize (2 * s.pq.length) else s).n + 1,
        pq := (if s.n = s.pq.length - 1 then s.resize (2 * s.pq.length) else s).pq.set
          ((if s.n = s.pq.length - 1 then s.resize (2 * s.pq.length) else s).n + 1) (some x) }
  rw [h.2.2]
  split <;> simp [resize_comparator]

end MinPQ

namespace MinPQ

variable {α : Type} [LinearOrder α]

theorem del_min_empty (s : MinPQ α) (h : s.n = 0) :
    s.del_min = Except.error "Priority queue underflow" := by
  unfold del_min
  simp [is_empty, h]

theorem min_empty (s : MinPQ α) (h : s.n = 0) :
    s.min = Except.error "Priority queue underflow" := by
  unfold min
  simp [is_empty, h]

theorem min_ok (s : MinPQ α) (h : s.n ≠ 0) : s.min = Except.ok (s.slot 1) := by
  unfold min
  simp [is_empty, h]

theorem sink_n (k : Nat) (s : MinPQ α) : (s.sink k).n = s.n := (sink_shape k s).1

theorem sink_length (k : Nat) (s : MinPQ α) :
    (s.sink k).pq.length = s.pq.length := (sink_shape k s).2.1

theorem sink_comparator (k : Nat) (s : MinPQ α) :
    (s.sink k).comparator = s.comparator := (sink_shape k s).2.2

theorem swim_n (k : Nat) (s : MinPQ α) : (s.swim k).n = s.n := (swim_shape k s).1

theorem swim_length (k : Nat) (s : MinPQ α) :
    (s.swim k).pq.length = s.pq.length := (swim_shape k s).2.1

theorem swim_comparator (k : Nat) (s : MinPQ α) :
    (s.swim k).comparator = s.comparator := (swim_shape k s).2.2

theorem del_min_ok_shape (s : MinPQ α) {m : Option α} {t : MinPQ α}
    (hok : s.del_min = Except.ok (m, t)) :
    m = s.slot 1 ∧ t.n = s.n - 1 ∧ t.comparator = s.comparator ∧
      t.pq.length = (if 0 < s.n - 1 ∧ s.n - 1 = (s.pq.length - 1) / 4
        then s.pq.length / 2 else s.pq.length) := by
  unfold del_min at hok
  by_cases h : s.is_empty = true
  · simp [h] at hok
  · rw [if_neg h] at hok
    have hn0 : s.n ≠ 0 := by
      intro h0
      exact h (by simp [is_empty, h0])
    rw [Except.ok.injEq, Prod.mk.injEq] at hok
    obtain ⟨hm, hts⟩ := hok
    subst hm
    subst hts
    refine ⟨rfl, ?_, ?_, ?_⟩
    · split <;>
        simp [resize_n, sink_n, exch_n]
    · split <;>
        simp [resize_comparator, sink_comparator, exch_comparator]
    · set T : MinPQ α := ({ pq := (s.exch 1 s.n).pq, n := (s.exch 1 s.n).n - 1, comparator := (s.exch 1 s.n).comparator } : MinPQ α).sink 1 with hT
      have hun : T.n = s.n - 1 := by
        rw [hT, sink_n]
        rfl
      have hul : T.pq.length = s.pq.length := by
        rw [hT, sink_length]
        exact exch_length s 1 s.n
      simp only [List.length_set, hun, hul]
      split
      · rw [resize_length]
      · simp [List.length_set, hul]

end MinPQ

namespace MinPQ

variable {α : Type} [LinearOrder α]

theorem del_min_isOk (s : MinPQ α) (h : s.n ≠ 0) :
    ∃ m t, s.del_min = Except.ok (m, t) := by
  unfold del_min
  rw [if_neg (by simp [is_empty, h])]
  exact ⟨_, _, rfl⟩

theorem run_cons (s : MinPQ α) (op : Op α) (rest : List (Op α)) :
    s.run (op :: rest) = (s.runOp op).run rest := rfl

theorem delSuccCount_general : ∀ (ops : List (Op α)) (s : MinPQ α),
    (s.run ops).size + s.delSuccCount ops = s.size + insCount ops := by
  intro ops
  induction ops with
  | nil => intro s; simp [run, delSuccCount, insCount]
  | cons op rest ih =>
    intro s
    cases op with
    | ins x =>
      have h := ih (s.insert x)
      rw [run_cons]
      have hsz : (s.insert x).size = s.size + 1 := insert_n s x
      simp only [delSuccCount, insCount, runOp]
      omega
    | del =>
      rw [run_cons]
      by_cases h0 : s.n = 0
      · have hkeep : s.runOp Op.del = s := by
          unfold runOp
          rw [del_min_empty s h0]
        have h := ih s
        simp only [delSuccCount, h0, if_pos, hkeep] at h ⊢
        simpa [hkeep] using h
      · obtain ⟨m, t, hok⟩ := del_min_isOk s h0
        have ht : s.runOp Op.del = t := by
          unfold runOp
          rw [hok]
        have hn := (del_min_ok_shape s hok).2.1
        have h := ih t
        simp [delSuccCount, insCount, h0, ht, size] at h ⊢
        omega

end MinPQ

namespace MinPQ

variable {α : Type} [LinearOrder α]

theorem min_error_msg (s : MinPQ α) {e : String}
    (he : s.min = Except.error e) : e = "Priority queue underflow" := by
  by_cases h : s.n = 0
  · rw [min_empty s h] at he
    exact (Except.error.inj he).symm
  · rw [min_ok s h] at he
    exact absurd he (by simp)

theorem del_min_error_msg (s : MinPQ α) {e : String}
    (he : s.del_min = Except.error e) : e = "Priority queue underflow" := by
  by_cases h : s.n = 0
  · rw [del_min_empty s h] at he
    exact (Except.error.inj he).symm
  · obtain ⟨m, t, hok⟩ := del_min_isOk s h
    rw [hok] at he
    exact absurd he (by simp)

/-- C3: `min` (peek) and `del_min` (extract) fail with the Underflow error —
an explicit `Except.error "Priority queue underflow"`, never a default or
null result — exactly when the heap is empty (`n = 0`); on a non-empty heap
both return ordinary `Except.ok` results. -/
theorem underflow_iff_empty (s : MinPQ α) :
    (s.min = Except.error "Priority queue underflow" ↔ s.n = 0) ∧
    (s.del_min = Except.error "Priority queue underflow" ↔ s.n = 0) ∧
    (∀ e, s.min = Except.error e → e = "Priority queue underflow") ∧
    (∀ e, s.del_min = Except.error e → e = "Priority queue underflow") ∧
    (s.n ≠ 0 → s.min = Except.ok (s.slot 1) ∧ ∃ m t, s.del_min = Except.ok (m, t)) := by
  by_cases h : s.n = 0
  · exact ⟨by simp [min_empty s h, h], by simp [del_min_empty s h, h],
      fun e he => min_error_msg s he, fun e he => del_min_error_msg s he,
      fun hn => absurd h hn⟩
  · obtain ⟨m, t, hok⟩ := del_min_isOk s h
    exact ⟨by simp [min_ok s h, h], by simp [hok, h],
      fun e he => min_error_msg s he, fun e he => del_min_error_msg s he,
      fun _ => ⟨min_ok s h, m, t, hok⟩⟩

/-- C3 witness at a concrete empty heap. -/
theorem underflow_iff_empty_witness :
    (MinPQ.withCapacity 1 none : MinPQ Int).min = Except.error "Priority queue underflow" :=
  (underflow_iff_empty (MinPQ.withCapacity 1 none)).1.mpr rfl

/-- C4: starting from an empty heap, after any sequence of `insert` and
`del_min` calls, `size()` equals the number of inserts minus the number of
successful (non-raising) `del_min` calls; and for every state, `is_empty()`
is true iff `size() = 0`. -/
theorem size_accounting (ops : List (Op α)) :
    ((withCapacity 1 none : MinPQ α).run ops).size +
        (withCapacity 1 none : MinPQ α).delSuccCount ops = insCount ops ∧
    (∀ s : MinPQ α, s.is_empty = true ↔ s.size = 0) := by
  constructor
  · have h := delSuccCount_general ops (withCapacity 1 none : MinPQ α)
    simpa [size, withCapacity] using h
  · intro s
    simp [is_empty, size]

/-- C5: constructing from the key list `[4, 2, 5, 1, 3]` (1-indexed copy, then
sink-based heapify from `n / 2` down to `1`) and extracting repeatedly yields
exactly `1, 2, 3, 4, 5`. -/
theorem ofKeys_example_drain :
    (MinPQ.ofKeys ([4, 2, 5, 1, 3] : List Int) none).drain
      = [some 1, some 2, some 3, some 4, some 5] := by decide

/-- C6: the iterator over a heap holding `{3, 1, 4, 2}` works on a private
snapshot copy; it yields `1, 2, 3, 4` in ascending order and then signals
exhaustion (`StopIteration`) after exactly four productions. -/
theorem iterator_example :
    (MinPQ.snapshot (MinPQ.insertAll (MinPQ.withCapacity 1 none)
        ([3, 1, 4, 2] : List Int))).drain = [some 1, some 2, some 3, some 4] ∧
    (∃ i1 i2 i3 i4 : MinPQ Int,
      MinPQ.iterNext (MinPQ.snapshot (MinPQ.insertAll (MinPQ.withCapacity 1 none)
        ([3, 1, 4, 2] : List Int))) = Except.ok (some 1, i1) ∧
      MinPQ.iterNext i1 = Except.ok (some 2, i2) ∧
      MinPQ.iterNext i2 = Except.ok (some 3, i3) ∧
      MinPQ.iterNext i3 = Except.ok (some 4, i4) ∧
      MinPQ.iterNext i4 = Except.error "StopIteration") :=
  ⟨by decide, ⟨_, _, _, _, rfl, rfl, rfl, rfl, rfl⟩⟩

/-- C7: in `del_min`, after the sink completes, the array is halved exactly
when the new size is nonzero and equals one quarter (integer division) of the
usable storage capacity; otherwise the storage is left at its old length.
(`s.pq.length` is also the storage length at the time of the shrink check,
since exch/sink/slot-clearing preserve it.) -/
theorem del_min_shrink (s : MinPQ α) {m : Option α} {t : MinPQ α}
    (hok : s.del_min = Except.ok (m, t)) :
    (0 < t.n ∧ t.n = (s.pq.length - 1) / 4 → t.pq.length = s.pq.length / 2) ∧
    (¬(0 < t.n ∧ t.n = (s.pq.length - 1) / 4) → t.pq.length = s.pq.length) := by
  obtain ⟨-, hn, -, hl⟩ := del_min_ok_shape s hok
  rw [hn]
  constructor <;> intro hc
  · rwa [if_pos hc] at hl
  · rwa [if_neg hc] at hl

/-- C7 witness: a heap of 8 slots and two live keys; the extract leaves
`n = 1 = (8 - 1) / 4`, so the storage shrinks from 8 to 4 slots. -/
theorem del_min_shrink_witness :
    ∃ (m : Option Int) (t : MinPQ Int),
      (MinPQ.insertAll (MinPQ.withCapacity 7 none) ([1, 2] : List Int)).del_min
          = Except.ok (m, t) ∧ t.pq.length = 4 := by
  refine ⟨_, _, rfl, ?_⟩
  exact (del_min_shrink
    (MinPQ.insertAll (MinPQ.withCapacity 7 none) ([1, 2] : List Int)) rfl).1 (by decide)

/-- C8: with the injected reverse comparator `fun a b => b - a`, inserting
`3` then `1` and extracting once yields `3`: the comparator, routed through
the single is-greater predicate, drives the ordering rather than the natural
order. -/
theorem reverse_comparator_example :
    ∃ t : MinPQ Int,
      (MinPQ.insertAll (MinPQ.withCapacity 1 (some (fun a b => b - a)))
          ([3, 1] : List Int)).del_min = Except.ok (some 3, t) :=
  ⟨_, rfl⟩

/-- C10: when `min()` or `del_min()` is called on an empty heap, the raise
happens before any field is written: the embedding returns the error without
producing a successor state, and the operational step `runOp` on the `del`
call keeps the state exactly unchanged. -/
theorem empty_error_state_unchanged (s : MinPQ α) (h : s.n = 0) :
    s.min = Except.error "Priority queue underflow" ∧
    s.del_min = Except.error "Priority queue underflow" ∧
    s.runOp Op.del = s := by
  refine ⟨min_empty s h, del_min_empty s h, ?_⟩
  unfold runOp
  rw [del_min_empty s h]

/-- C10 witness at a concrete empty heap. -/
theorem empty_error_state_unchanged_witness :
    (MinPQ.withCapacity 1 none : MinPQ Int).runOp Op.del = MinPQ.withCapacity 1 none :=
  (empty_error_state_unchanged (MinPQ.withCapacity 1 none) rfl).2.2

end MinPQ

namespace MinPQ

variable {α : Type} [LinearOrder α]

/-- C4 witness at a concrete operation sequence. -/
theorem size_accounting_witness :
    ((MinPQ.withCapacity 1 none : MinPQ Int).run [Op.ins 5, Op.del, Op.del]).size +
        (MinPQ.withCapacity 1 none : MinPQ Int).delSuccCount [Op.ins 5, Op.del, Op.del]
      = insCount [Op.ins 5, Op.del, Op.del] :=
  (size_accounting [Op.ins 5, Op.del, Op.del]).1

/-! ### The strict-weak-order toolkit for `greater` -/

theorem goodCmp_none : GoodCmp (none : Option (α → α → Int)) := by
  constructor
  · intro a b h
    simp only [keyGt, decide_eq_true_eq] at h
    simp only [keyGt, decide_eq_false_iff_not]
    exact lt_asymm h
  · intro a b d h1 h2
    simp only [keyGt, decide_eq_false_iff_not, not_lt] at h1 h2 ⊢
    exact h1.trans h2

theorem live_some {s : MinPQ α} (hw : Wf s) {i : Nat} (h1 : 1 ≤ i) (h2 : i ≤ s.n) :
    ∃ a, s.slot i = some a :=
  Option.isSome_iff_exists.mp (hw.live i h1 h2)

theorem greater_asymm {s : MinPQ α} (hg : GoodCmp s.comparator) (hw : Wf s)
    {i j : Nat} (hi1 : 1 ≤ i) (hi2 : i ≤ s.n) (hj1 : 1 ≤ j) (hj2 : j ≤ s.n)
    (h : s.greater i j = true) : s.greater j i = false := by
  obtain ⟨a, ha⟩ := live_some hw hi1 hi2
  obtain ⟨b, hb⟩ := live_some hw hj1 hj2
  simp only [greater, ha, hb, optGt] at h ⊢
  exact hg.1 a b h

theorem greater_negtrans {s : MinPQ α} (hg : GoodCmp s.comparator) (hw : Wf s)
    {i j l : Nat} (hi1 : 1 ≤ i) (hi2 : i ≤ s.n) (hj1 : 1 ≤ j) (hj2 : j ≤ s.n)
    (hl1 : 1 ≤ l) (hl2 : l ≤ s.n)
    (h1 : s.greater i j = false) (h2 : s.greater j l = false) :
    s.greater i l = false := by
  obtain ⟨a, ha⟩ := live_some hw hi1 hi2
  obtain ⟨b, hb⟩ := live_some hw hj1 hj2
  obtain ⟨d, hd⟩ := live_some hw hl1 hl2
  simp only [greater, ha, hb, hd, optGt] at h1 h2 ⊢
  exact hg.2 a b d h1 h2

/-! ### Exchange: well-formedness, frame, containment -/

theorem exch_wf {s : MinPQ α} (hw : Wf s) {i j : Nat}
    (hi1 : 1 ≤ i) (hi2 : i ≤ s.n) (hj1 : 1 ≤ j) (hj2 : j ≤ s.n) :
    Wf (s.exch i j) := by
  have hil : i < s.pq.length := by have := hw.cap; omega
  have hjl : j < s.pq.length := by have := hw.cap; omega
  constructor
  · rw [exch_n, exch_length]
    exact hw.cap
  · intro m hm1 hm2
    rw [exch_n] at hm2
    rw [exch_slot s hil hjl m]
    split
    · exact hw.live i hi1 hi2
    · split
      · exact hw.live j hj1 hj2
      · exact hw.live m hm1 hm2

theorem exch_frame {s : MinPQ α} (hw : Wf s) {i j : Nat}
    (hi1 : 1 ≤ i) (hi2 : i ≤ s.n) (hj1 : 1 ≤ j) (hj2 : j ≤ s.n)
    (m : Nat) (hm : m = 0 ∨ s.n < m) : (s.exch i j).slot m = s.slot m := by
  have hil : i < s.pq.length := by have := hw.cap; omega
  have hjl : j < s.pq.length := by have := hw.cap; omega
  rw [exch_slot s hil hjl m]
  rw [if_neg (by omega), if_neg (by omega)]

theorem exch_subset {s : MinPQ α} (hw : Wf s) {i j : Nat}
    (hi1 : 1 ≤ i) (hi2 : i ≤ s.n) (hj1 : 1 ≤ j) (hj2 : j ≤ s.n) :
    SubsetLive (s.exch i j) s := by
  have hil : i < s.pq.length := by have := hw.cap; omega
  have hjl : j < s.pq.length := by have := hw.cap; omega
  intro m hm1 hm2
  rw [exch_n] at hm2
  rw [exch_slot s hil hjl m]
  by_cases h1 : m = j
  · exact ⟨i, hi1, hi2, by rw [if_pos h1]⟩
  · by_cases h2 : m = i
    · exact ⟨j, hj1, hj2, by rw [if_neg h1, if_pos h2]⟩
    · exact ⟨m, hm1, hm2, by rw [if_neg h1, if_neg h2]⟩

theorem subsetLive_refl (s : MinPQ α) : SubsetLive s s :=
  fun i hi1 hi2 => ⟨i, hi1, hi2, rfl⟩

theorem subsetLive_trans {u t s : MinPQ α} (h1 : SubsetLive u t)
    (h2 : SubsetLive t s) : SubsetLive u s := by
  intro i hi1 hi2
  obtain ⟨j, hj1, hj2, hj⟩ := h1 i hi1 hi2
  obtain ⟨l, hl1, hl2, hl⟩ := h2 j hj1 hj2
  exact ⟨l, hl1, hl2, hj.trans hl⟩

end MinPQ

namespace MinPQ

variable {α : Type} [LinearOrder α]

/-! ### Sift operations: well-formedness, frame, containment -/

theorem swimAux_preserve : ∀ (fuel k : Nat) (s : MinPQ α), Wf s → 1 ≤ k → k ≤ s.n →
    Wf (swimAux fuel s k) ∧ SubsetLive (swimAux fuel s k) s ∧
      (∀ m, m = 0 ∨ s.n < m → (swimAux fuel s k).slot m = s.slot m) := by
  intro fuel
  induction fuel with
  | zero => exact fun k s hw _ _ => ⟨hw, subsetLive_refl s, fun m _ => rfl⟩
  | succ fuel ih =>
    intro k s hw hk1 hkn
    unfold swimAux
    split
    · rename_i h
      have hp1 : 1 ≤ k / 2 := by omega
      have hpn : k / 2 ≤ s.n := le_trans (Nat.div_le_self k 2) hkn
      have hw2 := exch_wf hw hp1 hpn hk1 hkn
      obtain ⟨hw3, hsub3, hfr3⟩ := ih (k / 2) (s.exch (k / 2) k) hw2 hp1
        (by rw [exch_n]; exact hpn)
      refine ⟨hw3, subsetLive_trans hsub3 (exch_subset hw hp1 hpn hk1 hkn), ?_⟩
      intro m hm
      rw [hfr3 m (by rw [exch_n]; exact hm)]
      exact exch_frame hw hp1 hpn hk1 hkn m hm
    · exact ⟨hw, subsetLive_refl s, fun m _ => rfl⟩

theorem swim_preserve {s : MinPQ α} (hw : Wf s) {k : Nat} (hk1 : 1 ≤ k)
    (hkn : k ≤ s.n) :
    Wf (s.swim k) ∧ SubsetLive (s.swim k) s ∧
      (∀ m, m = 0 ∨ s.n < m → (s.swim k).slot m = s.slot m) :=
  swimAux_preserve k k s hw hk1 hkn

theorem childSel_bounds {s : MinPQ α} {k : Nat} (h1 : 1 ≤ k) (h2 : 2 * k ≤ s.n) :
    k < s.childSel k ∧ s.childSel k ≤ s.n := by
  unfold childSel
  split <;> omega

theorem sinkAux_preserve : ∀ (fuel k : Nat) (s : MinPQ α), Wf s → 1 ≤ k →
    Wf (sinkAux fuel s k) ∧ SubsetLive (sinkAux fuel s k) s ∧
      (∀ m, m = 0 ∨ s.n < m → (sinkAux fuel s k).slot m = s.slot m) := by
  intro fuel
  induction fuel with
  | zero => exact fun k s hw _ => ⟨hw, subsetLive_refl s, fun m _ => rfl⟩
  | succ fuel ih =>
    intro k s hw hk1
    unfold sinkAux
    split
    · rename_i h
      split
      · obtain ⟨hjk, hjn⟩ := childSel_bounds h.1 h.2
        have hkn : k ≤ s.n := by omega
        have hj1 : 1 ≤ s.childSel k := by omega
        have hw2 := exch_wf hw hk1 hkn hj1 hjn
        obtain ⟨hw3, hsub3, hfr3⟩ := ih (s.childSel k) (s.exch k (s.childSel k))
          hw2 hj1
        refine ⟨hw3, subsetLive_trans hsub3 (exch_subset hw hk1 hkn hj1 hjn), ?_⟩
        intro m hm
        rw [hfr3 m (by rw [exch_n]; exact hm)]
        exact exch_frame hw hk1 hkn hj1 hjn m hm
      · exact ⟨hw, subsetLive_refl s, fun m _ => rfl⟩
    · exact ⟨hw, subsetLive_refl s, fun m _ => rfl⟩

theorem sink_preserve {s : MinPQ α} (hw : Wf s) {k : Nat} (hk1 : 1 ≤ k) :
    Wf (s.sink k) ∧ SubsetLive (s.sink k) s ∧
      (∀ m, m = 0 ∨ s.n < m → (s.sink k).slot m = s.slot m) :=
  sinkAux_preserve (s.n + 1 - k) k s hw hk1

theorem sinkFrom_preserve : ∀ (m : Nat) (s : MinPQ α), Wf s →
    Wf (s.sinkFrom m) ∧ SubsetLive (s.sinkFrom m) s ∧
      (∀ i, i = 0 ∨ s.n < i → (s.sinkFrom m).slot i = s.slot i) := by
  intro m
  induction m with
  | zero => exact fun s hw => ⟨hw, subsetLive_refl s, fun i _ => rfl⟩
  | succ m ih =>
    intro s hw
    obtain ⟨hw1, hsub1, hfr1⟩ := sink_preserve hw (k := m + 1) (by omega)
    obtain ⟨hw2, hsub2, hfr2⟩ := ih (s.sink (m + 1)) hw1
    have hn1 : (s.sink (m + 1)).n = s.n := sink_n (m + 1) s
    refine ⟨hw2, subsetLive_trans hsub2 hsub1, ?_⟩
    intro i hi
    have h2 := hfr2 i (by rw [hn1]; exact hi)
    have h1 := hfr1 i hi
    exact h2.trans h1
end MinPQ

namespace MinPQ

variable {α : Type} [LinearOrder α]

/-! ### Heap-order restoration -/

theorem exch_greater {s : MinPQ α} {i j : Nat} (hi : i < s.pq.length)
    (hj : j < s.pq.length) (p q : Nat) :
    (s.exch i j).greater p q =
      s.greater (if p = j then i else if p = i then j else p)
        (if q = j then i else if q = i then j else q) := by
  apply greater_congr (exch_comparator s i j)
  · rw [exch_slot s hi hj p]
    split_ifs <;> rfl
  · rw [exch_slot s hi hj q]
    split_ifs <;> rfl

theorem swimAux_ord : ∀ (fuel k : Nat) (s : MinPQ α), k ≤ fuel →
    GoodCmp s.comparator → Wf s → 1 ≤ k → k ≤ s.n →
    (∀ c, 2 ≤ c → c ≤ s.n → c ≠ k → s.greater (c / 2) c = false) →
    (2 ≤ k → ∀ c, c ≤ s.n → c / 2 = k → s.greater (k / 2) c = false) →
    ∀ c, 2 ≤ c → c ≤ s.n → (swimAux fuel s k).greater (c / 2) c = false := by
  intro fuel
  induction fuel with
  | zero => intro k s hf hg hw hk1 hkn h1 h2; omega
  | succ fuel ih =>
    intro k s hf hg hw hk1 hkn h1 h2
    unfold swimAux
    split
    · rename_i h
      have hk2 : 2 ≤ k := h.1
      have hp1 : 1 ≤ k / 2 := by omega
      have hpn : k / 2 ≤ s.n := le_trans (Nat.div_le_self k 2) hkn
      have hpl : k / 2 < s.pq.length := by have := hw.cap; omega
      have hkl : k < s.pq.length := by have := hw.cap; omega
      have hw2 : Wf (s.exch (k / 2) k) := exch_wf hw hp1 hpn hk1 hkn
      have hg2 : GoodCmp (s.exch (k / 2) k).comparator := by
        rw [exch_comparator]; exact hg
      -- edges except into the new hole k / 2
      have H1 : ∀ c, 2 ≤ c → c ≤ (s.exch (k / 2) k).n → c ≠ k / 2 →
          (s.exch (k / 2) k).greater (c / 2) c = false := by
        intro c hc2 hcn hcp
        rw [exch_n] at hcn
        rw [exch_greater hpl hkl]
        by_cases hck : c = k
        · subst hck
          have e1 : (if c / 2 = c then c / 2 else if c / 2 = c / 2 then c else c / 2) = c := by
            rw [if_neg (by omega), if_pos rfl]
          have e2 : (if c = c then c / 2 else if c = c / 2 then c else c) = c / 2 := by
            rw [if_pos rfl]
          rw [e1, e2]
          exact greater_asymm hg hw hp1 hpn hk1 hkn h.2
        · have e2 : (if c = k then k / 2 else if c = k / 2 then k else c) = c := by
            rw [if_neg hck, if_neg hcp]
          by_cases hch : c / 2 = k
          · have e1 : (if c / 2 = k then k / 2 else if c / 2 = k / 2 then k else c / 2) = k / 2 := by
              rw [if_pos hch]
            rw [e1, e2]
            exact h2 hk2 c hcn hch
          · by_cases hcp2 : c / 2 = k / 2
            · have e1 : (if c / 2 = k then k / 2 else if c / 2 = k / 2 then k else c / 2) = k := by
                rw [if_neg hch, if_pos hcp2]
              rw [e1, e2]
              have l1 : s.greater k (k / 2) = false :=
                greater_asymm hg hw hp1 hpn hk1 hkn h.2
              have l2 : s.greater (k / 2) c = false := by
                have h3 := h1 c hc2 hcn hck
                rwa [hcp2] at h3
              exact greater_negtrans hg hw hk1 hkn hp1 hpn (by omega) hcn l1 l2
            · have e1 : (if c / 2 = k then k / 2 else if c / 2 = k / 2 then k else c / 2) = c / 2 := by
                rw [if_neg hch, if_neg hcp2]
              rw [e1, e2]
              exact h1 c hc2 hcn hck
      -- the grandparent bridge for the new hole k / 2
      have H2 : 2 ≤ k / 2 → ∀ c, c ≤ (s.exch (k / 2) k).n → c / 2 = k / 2 →
          (s.exch (k / 2) k).greater (k / 2 / 2) c = false := by
        intro hp2 c hcn hcp
        rw [exch_n] at hcn
        rw [exch_greater hpl hkl]
        have e1 : (if k / 2 / 2 = k then k / 2 else if k / 2 / 2 = k / 2 then k else k / 2 / 2)
            = k / 2 / 2 := by
          rw [if_neg (by omega), if_neg (by omega)]
        by_cases hck : c = k
        · subst hck
          have e2 : (if c = c then c / 2 else if c = c / 2 then c else c) = c / 2 := by
            rw [if_pos rfl]
          rw [e1, e2]
          exact h1 (c / 2) hp2 hpn (by omega)
        · have hc4 : 4 ≤ c := by omega
          have e2 : (if c = k then k / 2 else if c = k / 2 then k else c) = c := by
            rw [if_neg hck, if_neg (by omega)]
          rw [e1, e2]
          have l1 : s.greater (k / 2 / 2) (k / 2) = false :=
            h1 (k / 2) hp2 hpn (by omega)
          have l2 : s.greater (k / 2) c = false := by
            have h3 := h1 c (by omega) hcn hck
            rwa [hcp] at h3
          exact greater_negtrans hg hw (by omega)
            (le_trans (Nat.div_le_self (k / 2) 2) hpn) hp1 hpn (by omega) hcn l1 l2
      exact ih (k / 2) (s.exch (k / 2) k) (by omega) hg2 hw2 hp1
        (by rw [exch_n]; exact hpn) H1 H2
    · rename_i h
      intro c hc2 hcn
      by_cases hck : c = k
      · subst hck
        rcases not_and_or.mp h with h' | h'
        · omega
        · cases hb : s.greater (c / 2) c
          · rfl
          · exact absurd hb h'
      · exact h1 c hc2 hcn hck

theorem swim_ord {s : MinPQ α} (hg : GoodCmp s.comparator) (hw : Wf s)
    {k : Nat} (hk1 : 1 ≤ k) (hkn : k ≤ s.n)
    (h1 : ∀ c, 2 ≤ c → c ≤ s.n → c ≠ k → s.greater (c / 2) c = false)
    (h2 : 2 ≤ k → ∀ c, c ≤ s.n → c / 2 = k → s.greater (k / 2) c = false) :
    ∀ c, 2 ≤ c → c ≤ s.n → (s.swim k).greater (c / 2) c = false :=
  swimAux_ord k k s le_rfl hg hw hk1 hkn h1 h2

end MinPQ

namespace MinPQ

variable {α : Type} [LinearOrder α]

theorem sinkAux_ord : ∀ (fuel k t : Nat) (s : MinPQ α), s.n + 1 - k ≤ fuel →
    GoodCmp s.comparator → Wf s → 1 ≤ t → t ≤ k →
    (∀ c, 2 ≤ c → c ≤ s.n → t ≤ c / 2 → c / 2 ≠ k → s.greater (c / 2) c = false) →
    (t ≤ k / 2 → ∀ c, c ≤ s.n → c / 2 = k → s.greater (k / 2) c = false) →
    ∀ c, 2 ≤ c → c ≤ s.n → t ≤ c / 2 → (sinkAux fuel s k).greater (c / 2) c = false := by
  intro fuel
  induction fuel with
  | zero =>
    intro k t s hf hg hw ht1 htk h1 h2 c hc2 hcn hct
    have hck : c / 2 ≠ k := by omega
    exact h1 c hc2 hcn hct hck
  | succ fuel ih =>
    intro k t s hf hg hw ht1 htk h1 h2
    unfold sinkAux
    split
    · rename_i h
      have hk1 : 1 ≤ k := h.1
      have hkn : k ≤ s.n := by omega
      -- the chosen smaller child
      have hjcases : (s.childSel k = 2 * k + 1 ∧ 2 * k < s.n ∧
            s.greater (2 * k) (2 * k + 1) = true) ∨
          (s.childSel k = 2 * k ∧ ¬(2 * k < s.n ∧ s.greater (2 * k) (2 * k + 1) = true)) := by
        unfold childSel
        split
        · rename_i hcs; exact Or.inl ⟨rfl, hcs⟩
        · rename_i hcs; exact Or.inr ⟨rfl, hcs⟩
      obtain ⟨hjk, hjn⟩ := childSel_bounds hk1 h.2
      have hj1 : 1 ≤ s.childSel k := by omega
      have hjhalf : s.childSel k / 2 = k := by rcases hjcases with ⟨e, -⟩ | ⟨e, -⟩ <;> omega
      -- the chosen child is not larger than the other child
      have hsmaller : ∀ c, c ≤ s.n → c / 2 = k → c ≠ s.childSel k →
          s.greater (s.childSel k) c = false := by
        intro c hcn2 hch hcj
        have hcval : c = 2 * k ∨ c = 2 * k + 1 := by omega
        rcases hjcases with ⟨e, hlt, hgt⟩ | ⟨e, hne⟩
        · have hc2k : c = 2 * k := by omega
          rw [e, hc2k]
          exact greater_asymm hg hw (by omega) (by omega) (by omega) (by omega) hgt
        · have hc2k : c = 2 * k + 1 := by omega
          rw [e, hc2k]
          rcases not_and_or.mp hne with h' | h'
          · omega
          · cases hb : s.greater (2 * k) (2 * k + 1)
            · rfl
            · exact absurd hb h'
      split
      · rename_i hgt
        -- swap k with the child and continue there
        have hkl : k < s.pq.length := by have := hw.cap; omega
        have hjl : s.childSel k < s.pq.length := by have := hw.cap; omega
        have hw2 : Wf (s.exch k (s.childSel k)) := exch_wf hw hk1 hkn hj1 hjn
        have hg2 : GoodCmp (s.exch k (s.childSel k)).comparator := by
          rw [exch_comparator]; exact hg
        have H1 : ∀ c, 2 ≤ c → c ≤ (s.exch k (s.childSel k)).n → t ≤ c / 2 →
            c / 2 ≠ s.childSel k →
            (s.exch k (s.childSel k)).greater (c / 2) c = false := by
          intro c hc2 hcn2 hct hcj
          rw [exch_n] at hcn2
          rw [exch_greater hkl hjl]
          by_cases hcj2 : c = s.childSel k
          · have e1 : (if c / 2 = s.childSel k then k else if c / 2 = k then s.childSel k
                else c / 2) = s.childSel k := by
              rw [if_neg hcj, if_pos (by omega)]
            have e2 : (if c = s.childSel k then k else if c = k then s.childSel k else c) = k := by
              rw [if_pos hcj2]
            rw [e1, e2]
            exact greater_asymm hg hw hk1 hkn hj1 hjn hgt
          · by_cases hck : c = k
            · have e1 : (if c / 2 = s.childSel k then k else if c / 2 = k then s.childSel k
                  else c / 2) = c / 2 := by
                rw [if_neg hcj, if_neg (by omega)]
              have e2 : (if c = s.childSel k then k else if c = k then s.childSel k else c)
                  = s.childSel k := by
                rw [if_neg hcj2, if_pos hck]
              rw [e1, e2]
              have h3 := h2 (by omega) (s.childSel k) hjn hjhalf
              rw [hck]
              exact h3
            · by_cases hch : c / 2 = k
              · -- c is the sibling of the chosen child
                have e1 : (if c / 2 = s.childSel k then k else if c / 2 = k then s.childSel k
                    else c / 2) = s.childSel k := by
                  rw [if_neg (by omega), if_pos hch]
                have e2 : (if c = s.childSel k then k else if c = k then s.childSel k else c)
                    = c := by
                  rw [if_neg hcj2, if_neg hck]
                rw [e1, e2]
                exact hsmaller c hcn2 hch hcj2
              · have e1 : (if c / 2 = s.childSel k then k else if c / 2 = k then s.childSel k
                    else c / 2) = c / 2 := by
                  rw [if_neg hcj, if_neg hch]
                have e2 : (if c = s.childSel k then k else if c = k then s.childSel k else c)
                    = c := by
                  rw [if_neg hcj2, if_neg hck]
                rw [e1, e2]
                exact h1 c hc2 hcn2 hct hch
        have H2 : t ≤ s.childSel k / 2 → ∀ c, c ≤ (s.exch k (s.childSel k)).n →
            c / 2 = s.childSel k →
            (s.exch k (s.childSel k)).greater (s.childSel k / 2) c = false := by
          intro htj c hcn2 hch
          rw [exch_n] at hcn2
          rw [exch_greater hkl hjl]
          have hcbig : 2 * s.childSel k ≤ c := by omega
          have e1 : (if s.childSel k / 2 = s.childSel k then k
              else if s.childSel k / 2 = k then s.childSel k else s.childSel k / 2)
              = s.childSel k := by
            rw [if_neg (by omega), if_pos hjhalf]
          have e2 : (if c = s.childSel k then k else if c = k then s.childSel k else c) = c := by
            rw [if_neg (by omega), if_neg (by omega)]
          rw [e1, e2]
          have h3 := h1 c (by omega) hcn2 (by omega) (by omega)
          rwa [hch] at h3
        exact ih (s.childSel k) t (s.exch k (s.childSel k)) (by rw [exch_n]; omega)
          hg2 hw2 ht1 (by omega) H1 H2
      · rename_i hgt
        have hngt : s.greater k (s.childSel k) = false := by
          cases hb : s.greater k (s.childSel k)
          · rfl
          · exact absurd hb hgt
        intro c hc2 hcn hct
        by_cases hch : c / 2 = k
        · by_cases hcj : c = s.childSel k
          · rw [hcj, hjhalf]
            exact hngt
          · have l2 : s.greater (s.childSel k) c = false := hsmaller c hcn hch hcj
            have l1 : s.greater k (s.childSel k) = false := hngt
            have := greater_negtrans hg hw hk1 hkn hj1 hjn (by omega) hcn l1 l2
            rwa [hch]
        · exact h1 c hc2 hcn hct hch
    · rename_i h
      intro c hc2 hcn hct
      have hck : c / 2 ≠ k := by omega
      exact h1 c hc2 hcn hct hck

theorem sink_ord {s : MinPQ α} (hg : GoodCmp s.comparator) (hw : Wf s)
    {k t : Nat} (ht1 : 1 ≤ t) (htk : t ≤ k)
    (h1 : ∀ c, 2 ≤ c → c ≤ s.n → t ≤ c / 2 → c / 2 ≠ k → s.greater (c / 2) c = false)
    (h2 : t ≤ k / 2 → ∀ c, c ≤ s.n → c / 2 = k → s.greater (k / 2) c = false) :
    ∀ c, 2 ≤ c → c ≤ s.n → t ≤ c / 2 → (s.sink k).greater (c / 2) c = false :=
  sinkAux_ord (s.n + 1 - k) k t s le_rfl hg hw ht1 htk h1 h2

end MinPQ

namespace MinPQ

variable {α : Type} [LinearOrder α]

theorem sinkFrom_ord : ∀ (m : Nat) (s : MinPQ α), GoodCmp s.comparator → Wf s →
    (∀ c, 2 ≤ c → c ≤ s.n → m < c / 2 → s.greater (c / 2) c = false) →
    ∀ c, 2 ≤ c → c ≤ s.n → (s.sinkFrom m).greater (c / 2) c = false := by
  intro m
  induction m with
  | zero =>
    intro s hg hw h1 c hc2 hcn
    exact h1 c hc2 hcn (by omega)
  | succ m ih =>
    intro s hg hw h1
    have H1 : ∀ c, 2 ≤ c → c ≤ s.n → m + 1 ≤ c / 2 → c / 2 ≠ m + 1 →
        s.greater (c / 2) c = false :=
      fun c hc2 hcn hct hne => h1 c hc2 hcn (by omega)
    have H2 : m + 1 ≤ (m + 1) / 2 → ∀ c, c ≤ s.n → c / 2 = m + 1 →
        s.greater ((m + 1) / 2) c = false := by
      intro habs
      omega
    have hs := sink_ord (k := m + 1) (t := m + 1) hg hw (by omega) le_rfl H1 H2
    obtain ⟨hw2, -, -⟩ := sink_preserve hw (k := m + 1) (by omega)
    have hg2 : GoodCmp (s.sink (m + 1)).comparator := by
      rw [sink_comparator]; exact hg
    have hn2 : (s.sink (m + 1)).n = s.n := sink_n (m + 1) s
    intro c hc2 hcn
    exact ih (s.sink (m + 1)) hg2 hw2
      (fun d hd2 hdn hdm => hs d hd2 (by rwa [hn2] at hdn) (by omega))
      c hc2 (by rwa [hn2])

/-! ### Validity of the constructors and preservation by the mutators -/

theorem withCapacity_slot (cap : Nat) (comp : Option (α → α → Int)) (i : Nat) :
    (withCapacity cap comp : MinPQ α).slot i = none := by
  show (List.replicate (cap + 1) (none : Option α)).getD i none = none
  rw [List.getD_eq_getElem?_getD, List.getElem?_replicate]
  split <;> rfl

theorem withCapacity_valid (cap : Nat) (comp : Option (α → α → Int)) :
    Valid (withCapacity cap comp : MinPQ α) := by
  refine ⟨⟨?_, ?_⟩, withCapacity_slot cap comp 0, fun i _ => withCapacity_slot cap comp i, ?_⟩
  · show 0 + 1 ≤ (List.replicate (cap + 1) (none : Option α)).length
    simp
  · intro i h1 h2
    have hz : (withCapacity cap comp : MinPQ α).n = 0 := rfl
    omega
  · intro c hc2 hcn
    have hz : (withCapacity cap comp : MinPQ α).n = 0 := rfl
    omega

theorem resize_valid {s : MinPQ α} (hv : Valid s) {c : Nat} (hc : s.n + 1 ≤ c) :
    Valid (s.resize c) ∧ SubsetLive (s.resize c) s := by
  have hslot : ∀ m, 1 ≤ m → m ≤ s.n → (s.resize c).slot m = s.slot m := by
    intro m h1 h2
    rw [resize_slot, if_pos ⟨by omega, h1, h2⟩]
  refine ⟨⟨⟨?_, ?_⟩, ?_, ?_, ?_⟩, ?_⟩
  · rw [resize_n, resize_length]
    exact hc
  · intro i h1 h2
    rw [resize_n] at h2
    rw [hslot i h1 h2]
    exact hv.wf.live i h1 h2
  · rw [resize_slot, if_neg (by omega)]
  · intro i hi
    rw [resize_n] at hi
    rw [resize_slot, if_neg (by omega)]
  · intro d hd2 hdn
    rw [resize_n] at hdn
    have e1 := hslot (d / 2) (by omega) (le_trans (Nat.div_le_self d 2) hdn)
    have e2 := hslot d (by omega) hdn
    rw [greater_congr (resize_comparator s c) e1 e2]
    exact hv.ord d hd2 hdn
  · intro i h1 h2
    rw [resize_n] at h2
    exact ⟨i, h1, h2, hslot i h1 h2⟩

theorem insert_valid_aux {u : MinPQ α} (hg : GoodCmp u.comparator) (hv : Valid u)
    (x : α) (hcap : u.n + 2 ≤ u.pq.length) :
    Valid (({ u with n := u.n + 1, pq := u.pq.set (u.n + 1) (some x) } : MinPQ α).swim
      (u.n + 1)) := by
  have hlt : u.n + 1 < u.pq.length := by omega
  set s2 : MinPQ α := { u with n := u.n + 1, pq := u.pq.set (u.n + 1) (some x) } with hs2
  have hslot : ∀ m, s2.slot m = if m = u.n + 1 then some x else u.slot m := by
    intro m
    show (u.pq.set (u.n + 1) (some x)).getD m none = _
    rw [getD_set_none]
    by_cases h : m = u.n + 1
    · rw [if_pos ⟨h, hlt⟩, if_pos h]
    · rw [if_neg (fun hc => h hc.1), if_neg h]
      rfl
  have hn2 : s2.n = u.n + 1 := rfl
  have hl2 : s2.pq.length = u.pq.length := List.length_set u.pq (u.n + 1) (some x)
  have hc2 : s2.comparator = u.comparator := rfl
  have hw2 : Wf s2 := by
    refine ⟨?_, ?_⟩
    · rw [hn2, hl2]
      exact hcap
    · intro i h1 h2
      rw [hn2] at h2
      rw [hslot i]
      by_cases h : i = u.n + 1
      · rw [if_pos h]; rfl
      · rw [if_neg h]
        exact hv.wf.live i h1 (by omega)
  have hg2 : GoodCmp s2.comparator := by rw [hc2]; exact hg
  have H1 : ∀ c, 2 ≤ c → c ≤ s2.n → c ≠ u.n + 1 → s2.greater (c / 2) c = false := by
    intro c hcc2 hcn hne
    rw [hn2] at hcn
    have hcu : c ≤ u.n := by omega
    have e1 : s2.slot (c / 2) = u.slot (c / 2) := by
      rw [hslot, if_neg (by omega)]
    have e2 : s2.slot c = u.slot c := by
      rw [hslot, if_neg hne]
    rw [greater_congr hc2 e1 e2]
    exact hv.ord c hcc2 hcu
  have H2 : 2 ≤ u.n + 1 → ∀ c, c ≤ s2.n → c / 2 = u.n + 1 →
      s2.greater ((u.n + 1) / 2) c = false := by
    intro h2le c hcn hch
    rw [hn2] at hcn
    omega
  have hord := swim_ord hg2 hw2 (k := u.n + 1) (by omega) (by rw [hn2]) H1 H2
  obtain ⟨hwS, -, hfrS⟩ := swim_preserve hw2 (k := u.n + 1) (by omega) (by rw [hn2])
  refine ⟨hwS, ?_, ?_, ?_⟩
  · rw [hfrS 0 (Or.inl rfl), hslot, if_neg (by omega)]
    exact hv.zero
  · intro i hi
    rw [swim_n, hn2] at hi
    rw [hfrS i (Or.inr (by rw [hn2]; omega)), hslot, if_neg (by omega)]
    exact hv.high i (by omega)
  · intro c hcc2 hcn
    rw [swim_n, hn2] at hcn
    exact hord c hcc2 (by rw [hn2]; exact hcn)

theorem insert_valid {s : MinPQ α} (hg : GoodCmp s.comparator) (hv : Valid s)
    (x : α) : Valid (s.insert x) := by
  unfold insert
  split
  · rename_i hfull
    have hcap0 := hv.wf.cap
    obtain ⟨hvr, -⟩ := resize_valid hv (c := 2 * s.pq.length) (by omega)
    have hgr : GoodCmp (s.resize (2 * s.pq.length)).comparator := by
      rw [resize_comparator]; exact hg
    exact insert_valid_aux hgr hvr x
      (by rw [resize_n, resize_length]; omega)
  · rename_i hfull
    have hcap0 := hv.wf.cap
    exact insert_valid_aux hg hv x (by omega)

end MinPQ

namespace MinPQ

variable {α : Type} [LinearOrder α]

theorem del_min_valid {s : MinPQ α} (hg : GoodCmp s.comparator) (hv : Valid s)
    (hn0 : s.n ≠ 0) {m : Option α} {t : MinPQ α}
    (hok : s.del_min = Except.ok (m, t)) : Valid t ∧ SubsetLive t s := by
  have hne : ¬(s.is_empty = true) := by simp [is_empty, hn0]
  unfold del_min at hok
  rw [if_neg hne] at hok
  rw [Except.ok.injEq, Prod.mk.injEq] at hok
  obtain ⟨-, hts⟩ := hok
  subst hts
  have hcap := hv.wf.cap
  have h1l : 1 < s.pq.length := by omega
  have hnl : s.n < s.pq.length := by omega
  set S1 : MinPQ α := s.exch 1 s.n with hS1
  have hn1e : S1.n = s.n := rfl
  have hw1 : Wf S1 := exch_wf hv.wf (by omega) (by omega) (by omega) le_rfl
  have hsub1 : SubsetLive S1 s := exch_subset hv.wf (by omega) (by omega) (by omega) le_rfl
  have hfr1 : ∀ i, i = 0 ∨ s.n < i → S1.slot i = s.slot i :=
    exch_frame hv.wf (by omega) (by omega) (by omega) le_rfl
  have hmid1 : ∀ i, 2 ≤ i → i ≤ s.n - 1 → S1.slot i = s.slot i := by
    intro i h2 h3
    rw [hS1, exch_slot s h1l hnl i, if_neg (by omega), if_neg (by omega)]
  set S2 : MinPQ α := { S1 with n := S1.n - 1 } with hS2
  have hn2 : S2.n = s.n - 1 := rfl
  have hc2 : S2.comparator = s.comparator := rfl
  have hl2 : S2.pq.length = s.pq.length := exch_length s 1 s.n
  have hslot2 : ∀ i, S2.slot i = S1.slot i := fun i => rfl
  have hw2 : Wf S2 := by
    refine ⟨?_, ?_⟩
    · rw [hn2, hl2]
      omega
    · intro i hi1 hi2
      rw [hn2] at hi2
      rw [hslot2]
      exact hw1.live i hi1 (by omega)
  have hg2 : GoodCmp S2.comparator := by rw [hc2]; exact hg
  have H1 : ∀ c, 2 ≤ c → c ≤ S2.n → 1 ≤ c / 2 → c / 2 ≠ 1 →
      S2.greater (c / 2) c = false := by
    intro c hcc2 hcn hch1 hchne
    rw [hn2] at hcn
    have e1 : S2.slot (c / 2) = s.slot (c / 2) := by
      rw [hslot2]
      exact hmid1 (c / 2) (by omega) (by omega)
    have e2 : S2.slot c = s.slot c := by
      rw [hslot2]
      exact hmid1 c hcc2 hcn
    rw [greater_congr hc2 e1 e2]
    exact hv.ord c hcc2 (by omega)
  have H2 : 1 ≤ 1 / 2 → ∀ c, c ≤ S2.n → c / 2 = 1 → S2.greater (1 / 2) c = false := by
    intro habs
    omega
  have hsord := sink_ord (k := 1) (t := 1) hg2 hw2 le_rfl le_rfl H1 H2
  obtain ⟨hw3, hsub3, hfr3⟩ := sink_preserve hw2 (k := 1) le_rfl
  set S3 : MinPQ α := S2.sink 1 with hS3
  have hn3 : S3.n = s.n - 1 := by rw [hS3, sink_n, hn2]
  have hc3 : S3.comparator = s.comparator := by rw [hS3, sink_comparator, hc2]
  have hl3 : S3.pq.length = s.pq.length := by rw [hS3, sink_length, hl2]
  set S4 : MinPQ α := { S3 with pq := S3.pq.set (S3.n + 1) none } with hS4
  have hn4 : S4.n = s.n - 1 := hn3
  have hc4 : S4.comparator = s.comparator := hc3
  have hl4 : S4.pq.length = s.pq.length := by
    rw [hS4]
    show (S3.pq.set (S3.n + 1) none).length = s.pq.length
    rw [List.length_set, hl3]
  have hsn : S3.n + 1 = s.n := by omega
  have hslot4 : ∀ i, S4.slot i = if i = s.n then none else S3.slot i := by
    intro i
    rw [hS4]
    show (S3.pq.set (S3.n + 1) none).getD i none = _
    rw [getD_set_none, hsn]
    by_cases h : i = s.n
    · rw [if_pos ⟨h, by rw [hl3]; omega⟩, if_pos h]
    · rw [if_neg (fun hc => h hc.1), if_neg h]
      rfl
  have hw4 : Wf S4 := by
    refine ⟨?_, ?_⟩
    · rw [hn4, hl4]
      omega
    · intro i hi1 hi2
      rw [hn4] at hi2
      rw [hslot4, if_neg (by omega)]
      exact hw3.live i hi1 (by rw [hS3, sink_n, hn2]; omega)
  have hzero4 : S4.slot 0 = none := by
    rw [hslot4, if_neg (by omega)]
    rw [hfr3 0 (Or.inl rfl), hslot2, hfr1 0 (Or.inl rfl)]
    exact hv.zero
  have hhigh4 : ∀ i, S4.n < i → S4.slot i = none := by
    intro i hi
    rw [hn4] at hi
    rw [hslot4]
    by_cases h : i = s.n
    · rw [if_pos h]
    · rw [if_neg h, hfr3 i (Or.inr (by rw [hn2]; omega)), hslot2,
        hfr1 i (Or.inr (by omega))]
      exact hv.high i (by omega)
  have hord4 : ∀ c, 2 ≤ c → c ≤ S4.n → S4.greater (c / 2) c = false := by
    intro c hcc2 hcn
    rw [hn4] at hcn
    have e1 : S4.slot (c / 2) = S3.slot (c / 2) := by
      rw [hslot4, if_neg (by omega)]
    have e2 : S4.slot c = S3.slot c := by
      rw [hslot4, if_neg (by omega)]
    have hcc : S4.comparator = S3.comparator := rfl
    rw [greater_congr hcc e1 e2]
    exact hsord c hcc2 (by rw [hn2]; omega) (by omega)
  have hsub4 : SubsetLive S4 s := by
    intro i hi1 hi2
    rw [hn4] at hi2
    obtain ⟨j, hj1, hj2, hj⟩ := hsub3 i hi1 (by rw [hn3]; omega)
    rw [hn2] at hj2
    obtain ⟨l, hl1, hl2b, hl⟩ := hsub1 j hj1 (by omega)
    refine ⟨l, hl1, hl2b, ?_⟩
    rw [hslot4, if_neg (by omega), hj, hslot2, hl]
  have hv4 : Valid S4 := ⟨hw4, hzero4, hhigh4, hord4⟩
  split
  · rename_i hcond
    obtain ⟨hvr, hsubr⟩ := resize_valid hv4 (c := S4.pq.length / 2) (by omega)
    exact ⟨hvr, subsetLive_trans hsubr hsub4⟩
  · exact ⟨hv4, hsub4⟩

end MinPQ

namespace MinPQ

variable {α : Type} [LinearOrder α]

theorem ofKeys_valid (keys : List α) (comp : Option (α → α → Int))
    (hg : GoodCmp comp) :
    Valid (ofKeys keys comp) ∧ (ofKeys keys comp).n = keys.length ∧
      (ofKeys keys comp).comparator = comp := by
  set base : MinPQ α := { pq := none :: keys.map some, n := keys.length, comparator := comp } with hbase
  have hlen : base.pq.length = keys.length + 1 := by
    show (none :: keys.map some).length = keys.length + 1
    simp
  have hlive : ∀ i, 1 ≤ i → i ≤ keys.length → (base.slot i).isSome = true := by
    intro i h1 h2
    obtain ⟨i0, rfl⟩ : ∃ i0, i = i0 + 1 := ⟨i - 1, by omega⟩
    show ((none :: keys.map some).getD (i0 + 1) none).isSome = true
    rw [List.getD_cons_succ, List.getD_eq_getElem?_getD, List.getElem?_map,
      List.getElem?_eq_getElem (by omega)]
    rfl
  have hhigh : ∀ i, keys.length < i → base.slot i = none := by
    intro i hi
    show (none :: keys.map some).getD i none = none
    rw [List.getD_eq_getElem?_getD, List.getElem?_eq_none (by simp; omega)]
    rfl
  have hzero : base.slot 0 = none := rfl
  have hwb : Wf base := by
    refine ⟨?_, ?_⟩
    · rw [hlen]
    · exact hlive
  have hgb : GoodCmp base.comparator := hg
  have h1 : ∀ c, 2 ≤ c → c ≤ base.n → keys.length / 2 < c / 2 →
      base.greater (c / 2) c = false := by
    intro c hc2 hcn habs
    have hbn : base.n = keys.length := rfl
    omega
  have hford := sinkFrom_ord (keys.length / 2) base hgb hwb h1
  obtain ⟨hwS, hsubS, hfrS⟩ := sinkFrom_preserve (keys.length / 2) base hwb
  have hnS : (base.sinkFrom (keys.length / 2)).n = keys.length :=
    (sinkFrom_shape (keys.length / 2) base).1
  have hcS : (base.sinkFrom (keys.length / 2)).comparator = comp :=
    (sinkFrom_shape (keys.length / 2) base).2.2
  rw [show ofKeys keys comp = base.sinkFrom (keys.length / 2) from rfl]
  refine ⟨⟨hwS, ?_, ?_, ?_⟩, hnS, hcS⟩
  · rw [hfrS 0 (Or.inl rfl)]
    exact hzero
  · intro i hi
    rw [hnS] at hi
    rw [hfrS i (Or.inr hi)]
    exact hhigh i hi
  · intro c hc2 hcn
    rw [hnS] at hcn
    exact hford c hc2 hcn

/-- The root of a valid heap is a lower bound of every live element
(the transitive closure of the heap-order invariant along parent links). -/
theorem root_min {s : MinPQ α} (hg : GoodCmp s.comparator) (hv : Valid s) :
    ∀ i, 1 ≤ i → i ≤ s.n → s.greater 1 i = false := by
  intro i
  induction i using Nat.strong_induction_on with
  | _ i ih =>
    intro hi1 hin
    rcases eq_or_lt_of_le hi1 with h1 | h1
    · rw [← h1]
      cases hb : s.greater 1 1 with
      | false => rfl
      | true =>
        have hfa := greater_asymm hg hv.wf (by omega) (by omega) (by omega)
          (by omega) hb
        simp [hb] at hfa
    · have hp := ih (i / 2) (by omega) (by omega)
        (le_trans (Nat.div_le_self i 2) hin)
      have he := hv.ord i (by omega) hin
      exact greater_negtrans hg hv.wf (by omega) (by omega) (by omega)
        (le_trans (Nat.div_le_self i 2) hin) (by omega) hin hp he

theorem drainAux_sorted : ∀ (N : Nat) (s : MinPQ α), s.n = N →
    GoodCmp s.comparator → Valid s →
    ∃ ys : List α, drainAux N s = ys.map some ∧
      List.Sorted (fun a b => keyGt s.comparator a b = false) ys ∧
      (∀ y ∈ ys, ∃ i, 1 ≤ i ∧ i ≤ s.n ∧ s.slot i = some y) := by
  intro N
  induction N with
  | zero =>
    intro s hN hg hv
    exact ⟨[], rfl, List.sorted_nil, by simp⟩
  | succ N ih =>
    intro s hN hg hv
    have hn0 : s.n ≠ 0 := by omega
    obtain ⟨mv, t, hok⟩ := del_min_isOk s hn0
    obtain ⟨hm, hn, hc, -⟩ := del_min_ok_shape s hok
    obtain ⟨hvt, hsubt⟩ := del_min_valid hg hv hn0 hok
    obtain ⟨r, hr⟩ := live_some hv.wf (i := 1) le_rfl (by omega)
    have hstep : drainAux (N + 1) s = mv :: drainAux N t := by
      simp only [drainAux, hok]
    obtain ⟨ys, hys, hsort, hmem⟩ := ih t (by omega) (by rw [hc]; exact hg) hvt
    refine ⟨r :: ys, ?_, ?_, ?_⟩
    · rw [hstep, hys, hm, hr, List.map_cons]
    · rw [List.sorted_cons]
      constructor
      · intro b hb
        obtain ⟨i, hi1, hi2, hib⟩ := hmem b hb
        obtain ⟨j, hj1, hj2, hjb⟩ := hsubt i hi1 hi2
        have hsb : s.slot j = some b := hjb.symm.trans hib
        have hroot := root_min hg hv j hj1 hj2
        simp only [greater, hr, hsb, optGt] at hroot
        exact hroot
      · rw [← hc]
        exact hsort
    · intro y hy
      rcases List.mem_cons.mp hy with h | h
      · exact ⟨1, le_rfl, by omega, by rw [h]; exact hr⟩
      · obtain ⟨i, hi1, hi2, hib⟩ := hmem y h
        obtain ⟨j, hj1, hj2, hjb⟩ := hsubt i hi1 hi2
        exact ⟨j, hj1, hj2, hjb.symm.trans hib⟩

theorem drain_sorted {s : MinPQ α} (hg : GoodCmp s.comparator) (hv : Valid s) :
    ∃ ys : List α, s.drain = ys.map some ∧
      List.Sorted (fun a b => keyGt s.comparator a b = false) ys := by
  obtain ⟨ys, h1, h2, -⟩ := drainAux_sorted s.n s rfl hg hv
  exact ⟨ys, h1, h2⟩

end MinPQ

namespace MinPQ

variable {α : Type} [LinearOrder α]

/-! ### The source's own invariant checker accepts every valid state -/

theorem isMinHeapOrderedAux_true {u : MinPQ α}
    (hord : ∀ c, 2 ≤ c → c ≤ u.n → u.greater (c / 2) c = false) :
    ∀ fuel k, 1 ≤ k → u.isMinHeapOrderedAux fuel k = true := by
  intro fuel
  induction fuel with
  | zero => intro k hk; rfl
  | succ fuel ih =>
    intro k hk
    unfold isMinHeapOrderedAux
    by_cases h : u.n < k
    · rw [if_pos h]
    · rw [if_neg h, if_neg (by omega)]
      have hleft : (!(2 * k ≤ u.n ∧ u.greater k (2 * k) = true : Bool)) = true := by
        rw [Bool.not_eq_true', decide_eq_false_iff_not]
        rintro ⟨hle, hgt⟩
        have hdiv : 2 * k / 2 = k := by omega
        have := hord (2 * k) (by omega) hle
        rw [hdiv] at this
        rw [this] at hgt
        cases hgt
      have hright : (!(2 * k + 1 ≤ u.n ∧ u.greater k (2 * k + 1) = true : Bool)) = true := by
        rw [Bool.not_eq_true', decide_eq_false_iff_not]
        rintro ⟨hle, hgt⟩
        have hdiv : (2 * k + 1) / 2 = k := by omega
        have := hord (2 * k + 1) (by omega) hle
        rw [hdiv] at this
        rw [this] at hgt
        cases hgt
      rw [hleft, hright, ih (2 * k) (by omega), ih (2 * k + 1) (by omega)]
      rfl

theorem is_min_heap_ordered_true {u : MinPQ α}
    (hord : ∀ c, 2 ≤ c → c ≤ u.n → u.greater (c / 2) c = false) :
    u.is_min_heap_ordered 1 = true :=
  isMinHeapOrderedAux_true hord (u.n + 1 - 1) 1 le_rfl

theorem is_min_heap_true {u : MinPQ α} (hv : Valid u) : u.is_min_heap = true := by
  unfold is_min_heap
  have h1 : ((List.range u.n).all fun i => (u.slot (i + 1)).isSome) = true := by
    rw [List.all_eq_true]
    intro i hi
    rw [List.mem_range] at hi
    exact hv.wf.live (i + 1) (by omega) (by omega)
  have h2 : ((List.range (u.pq.length - (u.n + 1))).all
      fun i => (u.slot (u.n + 1 + i)).isNone) = true := by
    rw [List.all_eq_true]
    intro i hi
    rw [hv.high (u.n + 1 + i) (by omega)]
    rfl
  have h3 : (u.slot 0).isNone = true := by
    rw [hv.zero]
    rfl
  rw [h1, h2, h3, is_min_heap_ordered_true hv.ord]
  rfl

/-- Children-of-`k` form of the heap-order invariant, as the spec states it. -/
theorem ord_children {u : MinPQ α}
    (hord : ∀ c, 2 ≤ c → c ≤ u.n → u.greater (c / 2) c = false)
    (k : Nat) (hk : 1 ≤ k) :
    (2 * k ≤ u.n → u.greater k (2 * k) = false) ∧
      (2 * k + 1 ≤ u.n → u.greater k (2 * k + 1) = false) := by
  constructor
  · intro h
    have hdiv : 2 * k / 2 = k := by omega
    have := hord (2 * k) (by omega) h
    rwa [hdiv] at this
  · intro h
    have hdiv : (2 * k + 1) / 2 = k := by omega
    have := hord (2 * k + 1) (by omega) h
    rwa [hdiv] at this

/-- C2: after every public mutating operation — `insert`, a successful
`del_min`, and construction from a key list — every live index `k ≥ 1` holds
an element not greater (per the active ordering, routed through `greater`)
than the elements at its child indices `2k` and `2k + 1` whenever those are
at most `n`.  The active ordering is any strict-weak-order comparator (the
spec's comparator contract), which includes the natural ordering. -/
theorem heap_order_after_mutators {s : MinPQ α} (hg : GoodCmp s.comparator)
    (hv : Valid s) :
    (∀ (x : α) (k : Nat), 1 ≤ k →
      (2 * k ≤ (s.insert x).n → (s.insert x).greater k (2 * k) = false) ∧
      (2 * k + 1 ≤ (s.insert x).n → (s.insert x).greater k (2 * k + 1) = false)) ∧
    (∀ (m : Option α) (t : MinPQ α), s.del_min = Except.ok (m, t) →
      ∀ k, 1 ≤ k → (2 * k ≤ t.n → t.greater k (2 * k) = false) ∧
        (2 * k + 1 ≤ t.n → t.greater k (2 * k + 1) = false)) ∧
    (∀ (keys : List α) (comp : Option (α → α → Int)), GoodCmp comp →
      ∀ k, 1 ≤ k →
        (2 * k ≤ (ofKeys keys comp).n → (ofKeys keys comp).greater k (2 * k) = false) ∧
        (2 * k + 1 ≤ (ofKeys keys comp).n →
          (ofKeys keys comp).greater k (2 * k + 1) = false)) := by
  refine ⟨?_, ?_, ?_⟩
  · intro x k hk
    exact ord_children (insert_valid hg hv x).ord k hk
  · intro m t hok k hk
    by_cases hn0 : s.n = 0
    · rw [del_min_empty s hn0] at hok
      cases hok
    · exact ord_children (del_min_valid hg hv hn0 hok).1.ord k hk
  · intro keys comp hgc k hk
    exact ord_children (ofKeys_valid keys comp hgc).1.ord k hk

/-- C2 witness: the heap built from `[3, 1, 2]` satisfies the parent/child
inequality at the root and its left child. -/
theorem heap_order_after_mutators_witness :
    (MinPQ.ofKeys ([3, 1, 2] : List Int) none).greater 1 (2 * 1) = false :=
  ((heap_order_after_mutators (goodCmp_none) (withCapacity_valid 1 none)).2.2
    [3, 1, 2] none goodCmp_none 1 le_rfl).1 (by decide)

/-- C1: starting from an empty heap with the natural ordering, inserting any
sequence of keys and then extracting repeatedly until the heap is empty
yields a non-decreasing sequence of values. -/
theorem insert_extract_sorted (xs : List α) :
    ∃ ys : List α,
      ((withCapacity 1 none : MinPQ α).insertAll xs).drain = ys.map some ∧
        List.Sorted (· ≤ ·) ys := by
  have hfold : ∀ (l : List α) (u : MinPQ α), u.comparator = none → Valid u →
      Valid (u.insertAll l) ∧ (u.insertAll l).comparator = none := by
    intro l
    induction l with
    | nil => exact fun u hc hv => ⟨hv, hc⟩
    | cons x rest ih =>
      intro u hc hv
      have hg : GoodCmp u.comparator := by rw [hc]; exact goodCmp_none
      have hv2 := insert_valid hg hv x
      have hc2 : (u.insert x).comparator = none := by
        rw [insert_comparator]; exact hc
      exact ih (u.insert x) hc2 hv2
  obtain ⟨hv, hc⟩ := hfold xs (withCapacity 1 none) rfl (withCapacity_valid 1 none)
  obtain ⟨ys, hd, hsort⟩ := drain_sorted (by rw [hc]; exact goodCmp_none) hv
  rw [hc] at hsort
  refine ⟨ys, hd, ?_⟩
  refine List.Pairwise.imp ?_ hsort
  intro a b h
  simp only [keyGt, decide_eq_false_iff_not, not_lt] at h
  exact h

/-- C1 witness at a concrete insertion sequence. -/
theorem insert_extract_sorted_witness :
    ∃ ys : List Int,
      ((MinPQ.withCapacity 1 none : MinPQ Int).insertAll [3, 1, 2]).drain = ys.map some ∧
        List.Sorted (· ≤ ·) ys :=
  insert_extract_sorted [3, 1, 2]

/-- C9: with the natural ordering, `insert` and construction from a key list
never fail: the debug assertion `_is_min_heap` they end with is true on every
valid state, and the only error any public operation ever raises is the
Underflow of `min`/`del_min` on an empty heap. -/
theorem insert_construct_no_failure {s : MinPQ α} (hc : s.comparator = none)
    (hv : Valid s) (x : α) (keys : List α) :
    (s.insert x).is_min_heap = true ∧
    (MinPQ.ofKeys keys (none : Option (α → α → Int)) : MinPQ α).is_min_heap = true ∧
    (∀ e, s.min = Except.error e → e = "Priority queue underflow") ∧
    (∀ e, s.del_min = Except.error e → e = "Priority queue underflow") := by
  have hg : GoodCmp s.comparator := by rw [hc]; exact goodCmp_none
  exact ⟨is_min_heap_true (insert_valid hg hv x),
    is_min_heap_true (ofKeys_valid keys none goodCmp_none).1,
    fun e he => min_error_msg s he, fun e he => del_min_error_msg s he⟩

/-- C9 witness at a concrete heap and key list. -/
theorem insert_construct_no_failure_witness :
    ((MinPQ.withCapacity 1 none : MinPQ Int).insert 0).is_min_heap = true :=
  (insert_construct_no_failure rfl (withCapacity_valid 1 none) 0 [2, 1]).1

end MinPQ
